import Mathlib

/-!
# Verification of `table2md`

A shallow embedding of the `table2md` library (`table2md/__init__.py`):
a grid is a `List (List String)` whose first row is the header.  The
renderer (`MarkdownTable.__str__`), the validator (`MarkdownTable.validate`),
the printing helper (`MarkdownTable.print`) and the four builder
classmethods are translated to executable Lean functions, and the
behavioural properties of the library are proved about those functions.

Partiality conventions: `__str__` can raise `IndexError` on ragged grids,
so `render` returns `Option String`; `validate` raises subclasses of
`InvalidData`, so it returns `Except InvalidData Unit`; `from_dicts` can
raise `KeyError`, so it returns `Except String _` carrying the missing key.
-/

namespace Table2MD

/-- A run of `n` spaces, the padding filler used by Python string methods. -/
def spaces (n : Nat) : String := String.mk (List.replicate n ' ')

/-- A run of `n` dashes, as used for the separator row. -/
def dashes (n : Nat) : String := String.mk (List.replicate n '-')

/-- Model of Python `str.center(width)` (CPython semantics): if the string is
already at least `width` long it is returned unchanged; otherwise with
`marg = width - len` the left padding is `marg / 2 + (marg &&& width &&& 1)`
spaces and the rest goes on the right. -/
def pyCenter (s : String) (width : Nat) : String :=
  if width ≤ s.length then s
  else
    let marg := width - s.length
    let left := marg / 2 + (marg &&& width &&& 1)
    spaces left ++ s ++ spaces (marg - left)

/-- Model of Python `str.ljust(width)`: pad with spaces on the right up to
`width`; no change when the string is already at least `width` long. -/
def pyLjust (s : String) (width : Nat) : String :=
  if width ≤ s.length then s else s ++ spaces (width - s.length)

/-- Number of columns produced by Python `zip(*data)`: zero when there are no
rows, otherwise the minimum row length (`zip` truncates to the shortest). -/
def numCols : List (List String) → Nat
  | [] => 0
  | r :: rs => rs.foldl (fun m row => min m row.length) r.length

/-- The `col_sizes` list of `MarkdownTable.__str__`: for each column index,
the maximum cell length in that column. -/
def colSizes (data : List (List String)) : List Nat :=
  (List.range (numCols data)).map fun i =>
    (data.map fun r => (r.getD i "").length).foldl Nat.max 0

/-- Collect a list of optional values, `none` if any element is `none`:
models a comprehension whose element evaluation may raise `IndexError`. -/
def optList {α : Type} : List (Option α) → Option (List α)
  | [] => some []
  | o :: os =>
    match o with
    | none => none
    | some a =>
      match optList os with
      | none => none
      | some rest => some (a :: rest)

/-- `MarkdownTable.__str__`: header row (cells centered in `width + 2`),
separator row (dashes of `width + 2`), then each data row with cells
left-justified to `width`, joined `" | "` inside `"| "` and `" |"`; every
line newline-terminated.  `none` models an `IndexError` (no header row, or a
cell index out of range of `col_sizes`). -/
def render (data : List (List String)) : Option String :=
  let cs := colSizes data
  match data.head? with
  | none => none
  | some header =>
    match optList (header.enum.map fun p => (cs[p.1]?).map fun w => pyCenter p.2 (w + 2)) with
    | none => none
    | some hcells =>
      match optList ((data.drop 1).map fun row =>
          (optList (row.enum.map fun p => (cs[p.1]?).map fun w => pyLjust p.2 w)).map
            fun cells => "| " ++ " | ".intercalate cells ++ " |\n") with
      | none => none
      | some body =>
        some ("|" ++ "|".intercalate hcells ++ "|\n"
          ++ "|" ++ "|".intercalate (cs.map fun w => dashes (w + 2)) ++ "|\n"
          ++ String.join body)

/-- The two validation failures of the library: `NoData` (with its message)
and `MisalignedRows`, which carries the offending 1-based row indices. -/
inductive InvalidData where
  | noData (msg : String)
  | misalignedRows (rows : List Nat)
deriving DecidableEq

deriving instance DecidableEq for Except

/-- `MarkdownTable.validate`: `NoData` when there are no rows or only a
header row; otherwise `MisalignedRows` listing every data row (1-based,
header is index 0) whose cell count differs from the header's; success
otherwise. -/
def validate (data : List (List String)) : Except InvalidData Unit :=
  if data.isEmpty then .error (.noData "missing header row")
  else if data.length = 1 then .error (.noData "only the header is present")
  else
    let headerLen := (data.headD []).length
    let invalidRows := (data.drop 1).enum.filterMap fun p =>
      if p.2.length ≠ headerLen then some (p.1 + 1) else none
    if invalidRows.isEmpty then .ok () else .error (.misalignedRows invalidRows)

/-- `MarkdownTable.print`: validate, then print `str(self)` followed by
`end`.  The result is the text written to the sink; on validation failure the
error propagates and nothing is written. -/
def printTable (data : List (List String)) (endStr : String) :
    Except InvalidData (Option String) :=
  match validate data with
  | .error e => .error e
  | .ok _ => .ok ((render data).map fun s => s ++ endStr)

/-- The header line of the rendered table as a total function; it agrees with
the first line `render` produces whenever every header index is within
`colSizes` (proved below). -/
def headerLine (data : List (List String)) : String :=
  "|" ++ "|".intercalate ((data.headD []).enum.map fun p =>
    pyCenter p.2 ((colSizes data).getD p.1 0 + 2)) ++ "|\n"

/-- The separator line of the rendered table. -/
def sepLine (data : List (List String)) : String :=
  "|" ++ "|".intercalate ((colSizes data).map fun w => dashes (w + 2)) ++ "|\n"

/-- The data lines of the rendered table as a total function; agrees with
`render`'s tail under the same condition as `headerLine`. -/
def bodyLines (data : List (List String)) : String :=
  String.join ((data.drop 1).map fun row =>
    "| " ++ " | ".intercalate (row.enum.map fun p =>
      pyLjust p.2 ((colSizes data).getD p.1 0)) ++ " |\n")

/-- The validation outcome as a function of the row-length profile alone;
`validate` factors through it (proved below). -/
def validateShape (ls : List Nat) : Except InvalidData Unit :=
  if ls.isEmpty then .error (.noData "missing header row")
  else if ls.length = 1 then .error (.noData "only the header is present")
  else
    let headerLen := ls.headD 0
    let invalidRows := (ls.drop 1).enum.filterMap fun p =>
      if p.2 ≠ headerLen then some (p.1 + 1) else none
    if invalidRows.isEmpty then .ok () else .error (.misalignedRows invalidRows)

/-- `MarkdownTable.from_2d_iterable` (value level): every cell is converted
with `f` (modelling `str`), row structure preserved. -/
def from_2d_iterable (f : α → String) (iters : List (List α)) : List (List String) :=
  iters.map fun row => row.map f

/-- Python `d[k]` on an insertion-ordered mapping, modelled as first-match
lookup in an association list. -/
def dlookup (k : String) (d : List (String × α)) : Option α :=
  (d.find? fun p => p.1 == k).map fun p => p.2

/-- `List.mapM` specialised to `Except` by structural recursion: stop at the
first error, as a Python loop stops at the first raised exception. -/
def exMapM (f : α → Except ε β) : List α → Except ε (List β)
  | [] => .ok []
  | a :: l =>
    match f a with
    | .error e => .error e
    | .ok b =>
      match exMapM f l with
      | .error e => .error e
      | .ok bs => .ok (b :: bs)

/-- One data row of `from_dicts`: `[str(d[k]) for k in data[0]]`; a missing
header key raises `KeyError` carrying that key. -/
def rowFromDict (f : α → String) (header : List String) (d : List (String × α)) :
    Except String (List String) :=
  exMapM (fun k =>
    match dlookup k d with
    | some v => .ok (f v)
    | none => .error k) header

/-- `MarkdownTable.from_dicts`: the header is the key list of the first
mapping; every mapping (the first included) contributes the row of its values
at the header keys, converted with `f`. -/
def from_dicts (f : α → String) (dicts : List (List (String × α))) :
    Except String (List (List String)) :=
  match dicts with
  | [] => .ok []
  | d :: ds =>
    let header := d.map fun p => p.1
    match exMapM (rowFromDict f header) (d :: ds) with
    | .error k => .error k
    | .ok rows => .ok (header :: rows)

/-- The `_NamedTupleLike` protocol: an ordered field-name sequence plus
iteration over the record's values. -/
structure NamedTupleLike (α : Type) where
  fields : List String
  elems : List α

/-- `MarkdownTable.from_namedtuples`: header from the first record's
`_fields`, then one row per record with every iterated value converted. -/
def from_namedtuples (f : α → String) : List (NamedTupleLike α) → List (List String)
  | [] => []
  | nt :: nts => nt.fields :: (nt :: nts).map fun r => r.elems.map f

/-- The `_Serializable` protocol: field names plus a `serialize()` result. -/
structure Serializable where
  fields : List String
  serialize : List String

/-- `MarkdownTable.from_serializable`: header from the first record's
`_fields`, then one row per record given by its `serialize()` output. -/
def from_serializable : List Serializable → List (List String)
  | [] => []
  | nt :: nts => nt.fields :: (nt :: nts).map fun r => r.serialize

/-- A heap of row objects: Python lists are mutable references, so a row is
an address into a store.  `next` is the next fresh address. -/
structure Store where
  next : Nat
  mem : Nat → List String

/-- Allocate a fresh row object (a new Python list). -/
def alloc (st : Store) (row : List String) : Store × Nat :=
  ({ next := st.next + 1, mem := fun a => if a = st.next then row else st.mem a }, st.next)

/-- Allocate one fresh row object per row, in order. -/
def allocRows (st : Store) : List (List String) → Store × List Nat
  | [] => (st, [])
  | r :: rs =>
    let p1 := alloc st r
    let p2 := allocRows p1.1 rs
    (p2.1, p1.2 :: p2.2)

/-- In-place mutation of the row object at address `a`. -/
def writeRow (st : Store) (a : Nat) (row : List String) : Store :=
  { next := st.next, mem := fun b => if b = a then row else st.mem b }

/-- Heap model of `from_2d_iterable` when the caller's rows live on the
heap: read every caller row, convert each cell with `f` (modelling `str`),
and allocate a fresh row object for each — the list comprehension in the
source builds new lists, never storing the caller's. -/
def from_2d_iterable_heap (f : String → String) (st : Store) (addrs : List Nat) :
    Store × List Nat :=
  allocRows st (addrs.map fun a => (st.mem a).map f)

/-! ## Helper lemmas -/

theorem spaces_length (n : Nat) : (spaces n).length = n := by
  simp [spaces]

theorem spaces_zero : spaces 0 = "" := rfl

/-- The low bit of a bitwise conjunction, as a conditional. -/
theorem land_land_one (a b : Nat) :
    a &&& b &&& 1 = if a % 2 = 1 ∧ b % 2 = 1 then 1 else 0 := by
  have h := Nat.testBit_and a b 0
  simp only [Nat.testBit_zero, Nat.and_one_is_mod] at h ⊢
  rcases Nat.mod_two_eq_zero_or_one (a &&& b) with h2 | h2 <;>
    rcases Nat.mod_two_eq_zero_or_one a with ha | ha <;>
    rcases Nat.mod_two_eq_zero_or_one b with hb | hb <;>
    simp [ha, hb, h2] at h ⊢ <;> omega

/-- Full characterisation of `pyCenter` on a string that fits: the padding is
split evenly, and an odd leftover space goes right when the target width is
even and left when it is odd (CPython `str.center` behaviour). -/
theorem pyCenter_spec (s : String) (w : Nat) (hle : s.length ≤ w) :
    ∃ l r, pyCenter s w = spaces l ++ s ++ spaces r ∧ s.length + l + r = w ∧
      ((l + r) % 2 = 0 → l = r) ∧
      ((l + r) % 2 = 1 → (w % 2 = 0 → r = l + 1) ∧ (w % 2 = 1 → l = r + 1)) := by
  by_cases hw : w ≤ s.length
  · refine ⟨0, 0, ?_, by omega, by omega, by omega⟩
    simp [pyCenter, hw, spaces_zero]
  · have hland := land_land_one (w - s.length) w
    refine ⟨(w - s.length) / 2 + ((w - s.length) &&& w &&& 1),
      (w - s.length) - ((w - s.length) / 2 + ((w - s.length) &&& w &&& 1)),
      by simp only [pyCenter, if_neg hw], ?_, ?_, ?_⟩ <;>
      rw [hland] <;> split_ifs with hpar <;> omega

/-- Collecting a list of options succeeds elementwise. -/
theorem optList_map_some {l : List α} {f : α → Option β} {g : α → β}
    (h : ∀ x ∈ l, f x = some (g x)) : optList (l.map f) = some (l.map g) := by
  induction l with
  | nil => rfl
  | cons a l ih =>
    rw [List.map_cons, h a (List.mem_cons_self a l)]
    simp only [optList]
    rw [ih fun x hx => h x (List.mem_cons_of_mem a hx)]
    rfl

theorem getElem?_eq_some_getD {l : List α} {i : Nat} (d : α) (h : i < l.length) :
    l[i]? = some (l.getD i d) := by
  rw [List.getElem?_eq_getElem h, List.getD_eq_getElem l d h]

theorem start_le_foldl_max (l : List Nat) (a : Nat) : a ≤ l.foldl Nat.max a := by
  induction l generalizing a with
  | nil => exact Nat.le_refl a
  | cons b l ih => exact Nat.le_trans (Nat.le_max_left a b) (ih (Nat.max a b))

theorem le_foldl_max {l : List Nat} {x : Nat} (hx : x ∈ l) (a : Nat) :
    x ≤ l.foldl Nat.max a := by
  induction l generalizing a with
  | nil => cases hx
  | cons b l ih =>
    rcases List.mem_cons.1 hx with rfl | h
    · exact Nat.le_trans (Nat.le_max_right a x) (start_le_foldl_max l (Nat.max a x))
    · exact ih h (Nat.max a b)

theorem foldl_min_eq {rs : List (List String)} {n : Nat}
    (h : ∀ r ∈ rs, r.length = n) :
    rs.foldl (fun m row => min m row.length) n = n := by
  induction rs with
  | nil => rfl
  | cons r rs ih =>
    simp only [List.foldl_cons]
    rw [h r (by simp), Nat.min_self]
    exact ih fun x hx => h x (by simp [hx])

theorem numCols_all_eq {data : List (List String)} {n : Nat}
    (hne : data ≠ []) (h : ∀ r ∈ data, r.length = n) : numCols data = n := by
  match data with
  | r :: rs =>
    simp only [numCols]
    rw [h r (by simp)]
    exact foldl_min_eq fun x hx => h x (by simp [hx])

theorem colSizes_length (data : List (List String)) :
    (colSizes data).length = numCols data := by
  simp [colSizes]

theorem colSizes_getD {data : List (List String)} {i : Nat} (h : i < numCols data) :
    (colSizes data).getD i 0
      = (data.map fun r => (r.getD i "").length).foldl Nat.max 0 := by
  rw [List.getD_eq_getElem _ _ (by simpa [colSizes] using h)]
  simp [colSizes]

theorem validate_nil :
    validate ([] : List (List String)) = .error (.noData "missing header row") := rfl

theorem validate_single (r : List String) :
    validate [r] = .error (.noData "only the header is present") := rfl

theorem validate_cons_cons (h r : List String) (t : List (List String)) :
    validate (h :: r :: t)
      = (if ((r :: t).enum.filterMap fun p =>
            if p.2.length ≠ h.length then some (p.1 + 1) else none).isEmpty
        then Except.ok ()
        else Except.error (InvalidData.misalignedRows ((r :: t).enum.filterMap fun p =>
            if p.2.length ≠ h.length then some (p.1 + 1) else none))) := by
  simp only [validate]
  rw [if_neg (by simp), if_neg (by simp)]
  simp only [List.headD_cons, List.drop_succ_cons, List.drop_zero]

theorem mem_invalidRows_iff {t : List (List String)} {n i : Nat} :
    (i ∈ t.enum.filterMap fun p => if p.2.length ≠ n then some (p.1 + 1) else none)
      ↔ 1 ≤ i ∧ i - 1 < t.length ∧ (t.getD (i - 1) []).length ≠ n := by
  simp only [List.mem_filterMap]
  constructor
  · rintro ⟨⟨j, row⟩, hmem, hf⟩
    rw [List.mem_enum_iff_getElem?] at hmem
    obtain ⟨hj, hrow⟩ := List.getElem?_eq_some_iff.1 hmem
    dsimp only at hf
    by_cases hlen : row.length ≠ n
    · rw [if_pos hlen] at hf
      obtain rfl : j + 1 = i := Option.some.inj hf
      refine ⟨by omega, by omega, ?_⟩
      show (t.getD j []).length ≠ n
      rw [List.getD_eq_getElem t [] hj, hrow]
      exact hlen
    · rw [if_neg hlen] at hf
      cases hf
  · rintro ⟨h1, h2, h3⟩
    obtain ⟨j, rfl⟩ : ∃ j, i = j + 1 := ⟨i - 1, by omega⟩
    refine ⟨(j, t.getD j []), ?_, ?_⟩
    · rw [List.mem_enum_iff_getElem?]
      exact getElem?_eq_some_getD [] (by omega)
    · show (if (t.getD j []).length ≠ n then some (j + 1) else none) = some (j + 1)
      exact if_pos h3

theorem invalidRows_eq_nil_iff {t : List (List String)} {n : Nat} :
    (t.enum.filterMap fun p => if p.2.length ≠ n then some (p.1 + 1) else none) = []
      ↔ ∀ row ∈ t, row.length = n := by
  rw [List.filterMap_eq_nil_iff]
  constructor
  · intro hall row hrow
    obtain ⟨j, hj⟩ := List.mem_iff_getElem?.1 hrow
    have hmem := hall (j, row) (List.mem_enum_iff_getElem?.2 hj)
    by_contra hne
    rw [if_pos hne] at hmem
    cases hmem
  · intro hall p hp
    rw [List.mem_enum_iff_getElem?] at hp
    have hmem : p.2 ∈ t := List.mem_iff_getElem?.2 ⟨p.1, hp⟩
    simp [hall p.2 hmem]

theorem mem_invalidRows_iff_data {h r : List String} {t : List (List String)} {i : Nat} :
    (i ∈ (r :: t).enum.filterMap fun p =>
        if p.2.length ≠ h.length then some (p.1 + 1) else none)
      ↔ 1 ≤ i ∧ i < (h :: r :: t).length ∧
        ((h :: r :: t).getD i []).length ≠ ((h :: r :: t).getD 0 []).length := by
  rw [mem_invalidRows_iff]
  constructor
  · rintro ⟨h1, h2, h3⟩
    obtain ⟨j, rfl⟩ : ∃ j, i = j + 1 := ⟨i - 1, by omega⟩
    refine ⟨h1, by simp only [List.length_cons] at h2 ⊢; omega, ?_⟩
    simpa using h3
  · rintro ⟨h1, h2, h3⟩
    obtain ⟨j, rfl⟩ : ∃ j, i = j + 1 := ⟨i - 1, by omega⟩
    refine ⟨h1, by simp only [List.length_cons] at h2 ⊢; omega, ?_⟩
    simpa using h3

theorem validate_ok_iff {data : List (List String)} :
    validate data = .ok ()
      ↔ 2 ≤ data.length ∧ ∀ r ∈ data, r.length = (data.headD []).length := by
  match data with
  | [] =>
    rw [validate_nil]
    constructor
    · intro hcontra; cases hcontra
    · rintro ⟨hlen, -⟩; simp at hlen
  | [r] =>
    rw [validate_single]
    constructor
    · intro hcontra; cases hcontra
    · rintro ⟨hlen, -⟩; simp at hlen
  | h :: r :: t =>
    rw [validate_cons_cons]
    split_ifs with he
    · rw [List.isEmpty_iff] at he
      have hall := invalidRows_eq_nil_iff.1 he
      simp only [List.headD_cons, List.length_cons]
      constructor
      · intro _
        refine ⟨by omega, ?_⟩
        intro x hx
        rcases List.mem_cons.1 hx with rfl | hx2
        · rfl
        · exact hall x hx2
      · intro _
        trivial
    · rw [List.isEmpty_iff] at he
      constructor
      · intro hcontra; cases hcontra
      · rintro ⟨-, hall⟩
        exact absurd
          (invalidRows_eq_nil_iff.2 fun row hrow =>
            hall row (List.mem_cons_of_mem h hrow)) he

/-- `render` succeeds and splits into its three line groups whenever the
header and every data row are no longer than the `col_sizes` list — the exact
condition for all `col_sizes[col_idx]` accesses to be in range. -/
theorem render_eq_lines {data : List (List String)} (hne : data ≠ [])
    (hh : (data.headD []).length ≤ (colSizes data).length)
    (hb : ∀ row ∈ data.drop 1, row.length ≤ (colSizes data).length) :
    render data = some (headerLine data ++ sepLine data ++ bodyLines data) := by
  obtain ⟨h, t, rfl⟩ := List.exists_cons_of_ne_nil hne
  simp only [List.headD_cons] at hh
  simp only [List.drop_succ_cons, List.drop_zero] at hb
  have hhd : optList (h.enum.map fun p =>
      ((colSizes (h :: t))[p.1]?).map fun w => pyCenter p.2 (w + 2))
      = some (h.enum.map fun p =>
          pyCenter p.2 ((colSizes (h :: t)).getD p.1 0 + 2)) := by
    refine optList_map_some fun p hp => ?_
    rw [List.mem_enum_iff_getElem?] at hp
    have hlt : p.1 < h.length := by
      have := List.getElem?_eq_some_iff.1 hp
      exact this.1
    rw [getElem?_eq_some_getD 0 (Nat.lt_of_lt_of_le hlt hh)]
    rfl
  have hbody : optList (t.map fun row =>
      (optList (row.enum.map fun p =>
        ((colSizes (h :: t))[p.1]?).map fun w => pyLjust p.2 w)).map
        fun cells => "| " ++ " | ".intercalate cells ++ " |\n")
      = some (t.map fun row =>
          "| " ++ " | ".intercalate (row.enum.map fun p =>
            pyLjust p.2 ((colSizes (h :: t)).getD p.1 0)) ++ " |\n") := by
    refine optList_map_some fun row hrow => ?_
    have hrl := hb row hrow
    have hinner : optList (row.enum.map fun p =>
        ((colSizes (h :: t))[p.1]?).map fun w => pyLjust p.2 w)
        = some (row.enum.map fun p =>
            pyLjust p.2 ((colSizes (h :: t)).getD p.1 0)) := by
      refine optList_map_some fun p hp => ?_
      rw [List.mem_enum_iff_getElem?] at hp
      have hlt : p.1 < row.length := (List.getElem?_eq_some_iff.1 hp).1
      rw [getElem?_eq_some_getD 0 (Nat.lt_of_lt_of_le hlt hrl)]
      rfl
    rw [hinner]
    rfl
  simp only [render, List.head?_cons, List.drop_succ_cons, List.drop_zero, hhd, hbody]
  simp only [headerLine, sepLine, bodyLines, List.headD_cons, List.drop_succ_cons,
    List.drop_zero, String.append_assoc]

/-- A validated grid has every row of header length, and its `colSizes` list
is exactly one entry per header cell. -/
theorem valid_shape {data : List (List String)} (hv : validate data = .ok ()) :
    2 ≤ data.length ∧ (∀ r ∈ data, r.length = (data.headD []).length) ∧
      (colSizes data).length = (data.headD []).length := by
  obtain ⟨hlen, hall⟩ := validate_ok_iff.1 hv
  refine ⟨hlen, hall, ?_⟩
  rw [colSizes_length]
  exact numCols_all_eq (by intro hc; subst hc; simp at hlen) hall

/-- On a validated grid, `render` succeeds and is exactly the header line,
the separator line and the data lines. -/
theorem render_of_valid {data : List (List String)} (hv : validate data = .ok ()) :
    render data = some (headerLine data ++ sepLine data ++ bodyLines data) := by
  obtain ⟨hlen, hall, hcs⟩ := valid_shape hv
  have hne : data ≠ [] := by intro hc; subst hc; simp at hlen
  refine render_eq_lines hne (by rw [hcs]) ?_
  intro row hrow
  rw [hcs, hall row (by exact List.mem_of_mem_drop hrow)]

/-- `validate` factors through the row-length profile. -/
theorem validate_eq_shape (data : List (List String)) :
    validate data = validateShape (data.map List.length) := by
  match data with
  | [] => rfl
  | h :: t =>
    have hfm : ((t.map List.length).enum.filterMap fun p =>
        if p.2 ≠ h.length then some (p.1 + 1) else none)
        = t.enum.filterMap fun p => if p.2.length ≠ h.length then some (p.1 + 1) else none := by
      rw [List.enum_map, List.filterMap_map]
      rfl
    simp only [validate, validateShape, List.map_cons, List.isEmpty_cons, List.length_cons,
      List.length_map, List.headD_cons, List.drop_succ_cons, List.drop_zero, hfm]

/-! ## Claims -/

/-- C1: `validate` raises `NoData` iff the grid has fewer than 2 rows; raises
`MisalignedRows` iff it has at least 2 rows and some data row's cell count
differs from the header's, and then it reports exactly the 1-based indices
(header = index 0) of all offending rows; and returns normally otherwise. -/
theorem c1_validate_contract (data : List (List String)) :
    ((∃ m, validate data = .error (.noData m)) ↔ data.length < 2) ∧
    ((∃ rows, validate data = .error (.misalignedRows rows)) ↔
      (2 ≤ data.length ∧ ∃ i, 1 ≤ i ∧ i < data.length ∧
        (data.getD i []).length ≠ (data.getD 0 []).length)) ∧
    (∀ rows, validate data = .error (.misalignedRows rows) →
      ∀ i, (i ∈ rows ↔ (1 ≤ i ∧ i < data.length ∧
        (data.getD i []).length ≠ (data.getD 0 []).length))) ∧
    (validate data = .ok () ↔ (2 ≤ data.length ∧ ∀ i, 1 ≤ i → i < data.length →
      (data.getD i []).length = (data.getD 0 []).length)) := by
  match data with
  | [] =>
    refine ⟨by simp [validate_nil], ?_, ?_, ?_⟩
    · rw [validate_nil]
      constructor
      · rintro ⟨rows, hcontra⟩
        simp at hcontra
      · rintro ⟨hlen, -⟩
        simp at hlen
    · intro rows hcontra
      rw [validate_nil] at hcontra
      simp at hcontra
    · rw [validate_nil]
      constructor
      · intro hcontra
        simp at hcontra
      · rintro ⟨hlen, -⟩
        simp at hlen
  | [r] =>
    refine ⟨by simp [validate_single], ?_, ?_, ?_⟩
    · rw [validate_single]
      constructor
      · rintro ⟨rows, hcontra⟩
        simp at hcontra
      · rintro ⟨hlen, -⟩
        simp at hlen
    · intro rows hcontra
      rw [validate_single] at hcontra
      simp at hcontra
    · rw [validate_single]
      constructor
      · intro hcontra
        simp at hcontra
      · rintro ⟨hlen, -⟩
        simp at hlen
  | h :: r :: t =>
    rw [validate_cons_cons]
    split_ifs with he <;> rw [List.isEmpty_iff] at he
    · refine ⟨?_, ?_, ?_, ?_⟩
      · constructor
        · rintro ⟨m, hcontra⟩
          simp at hcontra
        · intro hlen
          simp only [List.length_cons] at hlen
          omega
      · constructor
        · rintro ⟨rows, hcontra⟩
          simp at hcontra
        · rintro ⟨-, i, h1, h2, h3⟩
          have hmem := mem_invalidRows_iff_data.2 ⟨h1, h2, h3⟩
          rw [he] at hmem
          cases hmem
      · intro rows hcontra
        simp at hcontra
      · constructor
        · intro _
          refine ⟨by simp only [List.length_cons]; omega, ?_⟩
          intro i h1 h2
          by_contra h3
          have hmem := mem_invalidRows_iff_data.2 ⟨h1, h2, h3⟩
          rw [he] at hmem
          cases hmem
        · intro _
          rfl
    · refine ⟨?_, ?_, ?_, ?_⟩
      · constructor
        · rintro ⟨m, hcontra⟩
          simp at hcontra
        · intro hlen
          simp only [List.length_cons] at hlen
          omega
      · constructor
        · intro _
          refine ⟨by simp only [List.length_cons]; omega, ?_⟩
          obtain ⟨i, hi⟩ := List.exists_mem_of_ne_nil _ he
          exact ⟨i, mem_invalidRows_iff_data.1 hi⟩
        · intro _
          exact ⟨_, rfl⟩
      · intro rows heq
        simp only [Except.error.injEq, InvalidData.misalignedRows.injEq] at heq
        subst heq
        intro i
        exact mem_invalidRows_iff_data
      · constructor
        · intro hcontra
          simp at hcontra
        · rintro ⟨-, hall⟩
          refine absurd (invalidRows_eq_nil_iff.2 ?_) he
          intro row hrow
          obtain ⟨j, hj⟩ := List.mem_iff_getElem?.1 hrow
          obtain ⟨hjlt, hjv⟩ := List.getElem?_eq_some_iff.1 hj
          have hthis := hall (j + 1) (by omega)
            (by simp only [List.length_cons] at hjlt ⊢; omega)
          simp only [List.getD_cons_succ, List.getD_cons_zero] at hthis
          rw [List.getD_eq_getElem _ [] hjlt, hjv] at hthis
          exact hthis

/-- Witness for C1 at a concrete grid: the reported list `[2, 3]` contains
exactly the offending 1-based indices. -/
theorem c1_validate_contract_witness :
    (2 : Nat) ∈ [2, 3] ∧ (4 : Nat) ∉ ([2, 3] : List Nat) := by
  have hc := (c1_validate_contract [["a"], ["b"], ["c", "d"], [], ["e"]]).2.2.1
    [2, 3] (by decide)
  exact ⟨(hc 2).2 (by decide), fun hmem => ((hc 4).1 hmem).2.2 (by decide)⟩

/-- C10: the outcome of `validate` — success, error kind, and reported
indices — depends only on the grid's row-length profile, never on cell
contents. -/
theorem c10_validate_shape_only (d1 d2 : List (List String))
    (h : d1.map List.length = d2.map List.length) :
    validate d1 = validate d2 := by
  rw [validate_eq_shape, validate_eq_shape, h]

/-- Witness for C10: two grids with equal row-length profiles but different
cell contents validate identically. -/
theorem c10_validate_shape_only_witness :
    validate [["a"], ["bb", "c"], ["d"]] = validate [["xxxx"], ["y", "z"], [""]] :=
  c10_validate_shape_only _ _ (by decide)

/-- On a validated grid, every header cell fits inside its column width. -/
theorem headerCell_le_colSize {data : List (List String)} (hv : validate data = .ok ())
    {p : Nat × String} (hp : p ∈ (data.headD []).enum) :
    p.2.length ≤ (colSizes data).getD p.1 0 := by
  obtain ⟨hlen, hall, hcs⟩ := valid_shape hv
  rw [List.mem_enum_iff_getElem?] at hp
  obtain ⟨hlt, hval⟩ := List.getElem?_eq_some_iff.1 hp
  have hnum : numCols data = (data.headD []).length := by rw [← colSizes_length, hcs]
  rw [colSizes_getD (by omega)]
  obtain ⟨h, t, rfl⟩ := List.exists_cons_of_ne_nil
    (by intro hc; subst hc; simp at hlen : data ≠ [])
  simp only [List.headD_cons] at hlt hval
  refine le_foldl_max (List.mem_map.2 ⟨h, by simp, ?_⟩) 0
  rw [List.getD_eq_getElem h "" hlt, hval]

/-- C2: rendering the grid built from the rectangular input
`[["foo","bar"],["spam","eggs"],["hello","world"]]` produces exactly the
documented markdown text, byte for byte. -/
theorem c2_round_trip :
    render (from_2d_iterable (fun s => s)
        [["foo", "bar"], ["spam", "eggs"], ["hello", "world"]])
      = some "|  foo  |  bar  |\n|-------|-------|\n| spam  | eggs  |\n| hello | world |\n" := by
  decide

/-- C3 counterexample: on the valid grid `[["ab"], ["xyz"]]` the header cell
`"ab"` is centered in width `5` with the extra space on the LEFT
(`"|  ab |"`), not on the right (`"| ab  |"`) as the claim requires for odd
total padding. -/
theorem c3_counterexample :
    validate [["ab"], ["xyz"]] = .ok () ∧
    render [["ab"], ["xyz"]] = some "|  ab |\n|-----|\n| xyz |\n" ∧
    render [["ab"], ["xyz"]] ≠ some "| ab  |\n|-----|\n| xyz |\n" := by
  decide

/-- C3 (amended): for every valid grid the rendered text starts with the
header line, whose cells are centered within `width + 2` characters with the
padding split as evenly as possible; when the total padding is odd, the
single extra space goes on the right if `width + 2` is even, and on the left
if `width + 2` is odd. -/
theorem c3_header_centering (data : List (List String)) (hv : validate data = .ok ()) :
    (∃ rest, render data = some (headerLine data ++ rest)) ∧
    ∀ p ∈ (data.headD []).enum,
      ∃ l r, pyCenter p.2 ((colSizes data).getD p.1 0 + 2)
          = spaces l ++ p.2 ++ spaces r
        ∧ p.2.length + l + r = (colSizes data).getD p.1 0 + 2
        ∧ ((l + r) % 2 = 0 → l = r)
        ∧ ((l + r) % 2 = 1 →
            ((((colSizes data).getD p.1 0 + 2) % 2 = 0 → r = l + 1)
          ∧ ((((colSizes data).getD p.1 0 + 2) % 2 = 1 → l = r + 1)))) := by
  constructor
  · exact ⟨sepLine data ++ bodyLines data, by
      rw [render_of_valid hv, String.append_assoc]⟩
  · intro p hp
    exact pyCenter_spec p.2 ((colSizes data).getD p.1 0 + 2)
      (Nat.le_trans (headerCell_le_colSize hv hp) (Nat.le_add_right _ 2))

/-- Witness for C3 (amended) on a concrete valid grid. -/
theorem c3_header_centering_witness :
    render [["ab"], ["xyz"]] = some (headerLine [["ab"], ["xyz"]]
      ++ (sepLine [["ab"], ["xyz"]] ++ bodyLines [["ab"], ["xyz"]])) := by
  obtain ⟨rest, hrest⟩ := (c3_header_centering [["ab"], ["xyz"]] (by decide)).1
  rw [hrest]
  have : rest = sepLine [["ab"], ["xyz"]] ++ bodyLines [["ab"], ["xyz"]] := by
    have h2 := @render_of_valid [["ab"], ["xyz"]] (by decide)
    rw [hrest, String.append_assoc] at h2
    have h3 := Option.some.inj h2
    have h4 := congrArg String.data h3
    simp only [String.data_append] at h4
    exact String.ext (List.append_cancel_left h4)
  rw [this]

/-- C7: the print operation validates before rendering — on an invalid grid
the validation error propagates and nothing is written; on a valid grid it
writes exactly the rendered text followed by the terminator. -/
theorem c7_print_validates_first (data : List (List String)) (endStr : String) :
    (∀ e, validate data = .error e → printTable data endStr = .error e) ∧
    (validate data = .ok () →
      ∃ s, render data = some s ∧ printTable data endStr = .ok (some (s ++ endStr))) := by
  constructor
  · intro e he
    simp only [printTable, he]
  · intro hv
    refine ⟨headerLine data ++ sepLine data ++ bodyLines data, render_of_valid hv, ?_⟩
    simp only [printTable, hv, render_of_valid hv]
    rfl

/-- Witness for C7: both the error-propagation and the success case at
concrete grids. -/
theorem c7_print_validates_first_witness :
    printTable [["a"], ["b", "c"]] "" = .error (.misalignedRows [1]) ∧
    ∃ s, render [["a"], ["b"]] = some s ∧ printTable [["a"], ["b"]] "!" = .ok (some (s ++ "!")) :=
  ⟨(c7_print_validates_first [["a"], ["b", "c"]] "").1 _ (by decide),
    (c7_print_validates_first [["a"], ["b"]] "!").2 (by decide)⟩

/-- C8: `from_dicts` on an empty iterable returns the empty grid, and
validating the empty grid fails with `NoData`. -/
theorem c8_from_dicts_empty (f : α → String) :
    from_dicts f ([] : List (List (String × α))) = .ok [] ∧
    validate [] = .error (.noData "missing header row") :=
  ⟨rfl, rfl⟩

/-- C9: a grid with exactly one row (the header alone) renders successfully
to just the header line and the separator line, while `validate` rejects the
same grid with `NoData`. -/
theorem c9_render_header_only (row : List String) :
    render [row] = some (headerLine [row] ++ sepLine [row]) ∧
    validate [row] = .error (.noData "only the header is present") := by
  refine ⟨?_, validate_single row⟩
  have hcs : (colSizes [row]).length = row.length := by
    rw [colSizes_length]
    rfl
  have hr := @render_eq_lines [row] (by simp)
    (by simp only [List.headD_cons]; omega)
    (by intro r hr; simp at hr)
  rw [hr]
  have hbody : bodyLines [row] = "" := rfl
  rw [hbody, String.append_empty]

/-- Allocation produces fresh, in-range addresses, leaves every pre-existing
row object untouched, and stores the given rows in order. -/
theorem allocRows_spec (st : Store) (rows : List (List String)) :
    (allocRows st rows).1.next = st.next + rows.length ∧
    (allocRows st rows).2.length = rows.length ∧
    (∀ b ∈ (allocRows st rows).2, st.next ≤ b ∧ b < st.next + rows.length) ∧
    (∀ a, a < st.next → (allocRows st rows).1.mem a = st.mem a) ∧
    (∀ i, i < rows.length →
      (allocRows st rows).1.mem ((allocRows st rows).2.getD i 0) = rows.getD i []) := by
  induction rows generalizing st with
  | nil => exact ⟨rfl, rfl, by simp [allocRows], fun a _ => rfl, by simp⟩
  | cons r rs ih =>
    obtain ⟨ihn, ihl, ihf, ihb, ihr⟩ := ih (alloc st r).1
    have hnext1 : (alloc st r).1.next = st.next + 1 := rfl
    rw [hnext1] at ihn ihf ihb
    refine ⟨?_, ?_, ?_, ?_, ?_⟩
    · show (allocRows (alloc st r).1 rs).1.next = st.next + (rs.length + 1)
      rw [ihn]
      omega
    · show ((alloc st r).2 :: (allocRows (alloc st r).1 rs).2).length = rs.length + 1
      simp [ihl]
    · intro b hb
      rcases List.mem_cons.1 hb with rfl | hb2
      · show st.next ≤ st.next ∧ st.next < st.next + (rs.length + 1)
        omega
      · have := ihf b hb2
        simp only [List.length_cons]
        omega
    · intro a ha
      show (allocRows (alloc st r).1 rs).1.mem a = st.mem a
      rw [ihb a (by omega)]
      show (if a = st.next then r else st.mem a) = st.mem a
      rw [if_neg (by omega)]
    · intro i hi
      match i with
      | 0 =>
        show (allocRows (alloc st r).1 rs).1.mem (alloc st r).2 = r
        rw [show (alloc st r).2 = st.next from rfl, ihb st.next (by omega)]
        show (if st.next = st.next then r else st.mem st.next) = r
        rw [if_pos rfl]
      | j + 1 =>
        show (allocRows (alloc st r).1 rs).1.mem
            ((allocRows (alloc st r).1 rs).2.getD j 0) = rs.getD j []
        exact ihr j (by simp only [List.length_cons] at hi; omega)

/-- C4: `from_2d_iterable` stores, row by row and in order, the
`f`-conversion (`str`) of every input cell, the first input row becoming the
header; and in the heap model the produced rows live at fresh addresses, so
mutating any caller-held row afterwards never changes the grid's rows and
mutating the grid's rows never changes any caller-held row. -/
theorem c4_from_2d_iterable_copy (f : α → String) (iters : List (List α))
    (g : String → String) (st : Store) (addrs : List Nat) :
    ((from_2d_iterable f iters).head? = iters.head?.map (List.map f)) ∧
    (∀ i : Nat, (from_2d_iterable f iters)[i]? = (iters[i]?).map (List.map f)) ∧
    ((from_2d_iterable_heap g st addrs).2.length = addrs.length ∧
      ∀ b ∈ (from_2d_iterable_heap g st addrs).2, st.next ≤ b) ∧
    (∀ i, i < addrs.length →
      (from_2d_iterable_heap g st addrs).1.mem
          ((from_2d_iterable_heap g st addrs).2.getD i 0)
        = (st.mem (addrs.getD i 0)).map g) ∧
    (∀ a, a < st.next →
      (from_2d_iterable_heap g st addrs).1.mem a = st.mem a) ∧
    (∀ a, a < st.next → ∀ v i, i < addrs.length →
      (writeRow (from_2d_iterable_heap g st addrs).1 a v).mem
          ((from_2d_iterable_heap g st addrs).2.getD i 0)
        = (from_2d_iterable_heap g st addrs).1.mem
            ((from_2d_iterable_heap g st addrs).2.getD i 0)) ∧
    (∀ b ∈ (from_2d_iterable_heap g st addrs).2, ∀ v a, a < st.next →
      (writeRow (from_2d_iterable_heap g st addrs).1 b v).mem a
        = (from_2d_iterable_heap g st addrs).1.mem a) := by
  obtain ⟨hn, hl, hf, hold, hread⟩ :=
    allocRows_spec st (addrs.map fun a => (st.mem a).map g)
  simp only [List.length_map] at hl hf hread
  have hgetD : ∀ i, i < addrs.length →
      (addrs.map fun a => (st.mem a).map g).getD i [] = (st.mem (addrs.getD i 0)).map g := by
    intro i hi
    rw [List.getD_eq_getElem _ _ (by simpa using hi), List.getElem_map,
      List.getD_eq_getElem _ _ hi]
  have hfresh : ∀ i, i < addrs.length →
      st.next ≤ (from_2d_iterable_heap g st addrs).2.getD i 0 := by
    intro i hi
    have hmem : (from_2d_iterable_heap g st addrs).2.getD i 0
        ∈ (from_2d_iterable_heap g st addrs).2 := by
      rw [List.getD_eq_getElem _ _ (by rw [show (from_2d_iterable_heap g st addrs).2
        = (allocRows st (addrs.map fun a => (st.mem a).map g)).2 from rfl, hl]; exact hi)]
      exact List.getElem_mem _
    exact (hf _ hmem).1
  refine ⟨?_, ?_, ⟨hl, fun b hb => (hf b hb).1⟩, ?_, hold, ?_, ?_⟩
  · cases iters <;> rfl
  · intro i
    simp [from_2d_iterable]
  · intro i hi
    rw [show from_2d_iterable_heap g st addrs
      = allocRows st (addrs.map fun a => (st.mem a).map g) from rfl,
      hread i (by simpa using hi), hgetD i hi]
  · intro a ha v i hi
    show (if (from_2d_iterable_heap g st addrs).2.getD i 0 = a then v else _) = _
    rw [if_neg (by have := hfresh i hi; omega)]
  · intro b hb v a ha
    show (if a = b then v else (from_2d_iterable_heap g st addrs).1.mem a)
      = (from_2d_iterable_heap g st addrs).1.mem a
    rw [if_neg (by have := (hf b hb).1; omega)]

/-- Witness for C4 at a concrete heap: converting two caller rows yields
fresh rows holding the converted cells. -/
theorem c4_from_2d_iterable_copy_witness :
    (from_2d_iterable_heap (fun s => s ++ "!")
        ⟨2, fun a => if a = 0 then ["hi"] else ["yo"]⟩ [0, 1]).1.mem
      ((from_2d_iterable_heap (fun s => s ++ "!")
        ⟨2, fun a => if a = 0 then ["hi"] else ["yo"]⟩ [0, 1]).2.getD 0 0)
    = ["hi!"] := by
  have hc := (c4_from_2d_iterable_copy (fun s => s) ([] : List (List String))
    (fun s => s ++ "!") ⟨2, fun a => if a = 0 then ["hi"] else ["yo"]⟩ [0, 1]).2.2.2.1
    0 (by decide)
  rw [hc]
  rfl

theorem exMapM_map_ok {f : α → Except ε β} {g : α → β} {l : List α}
    (h : ∀ x ∈ l, f x = .ok (g x)) : exMapM f l = .ok (l.map g) := by
  induction l with
  | nil => rfl
  | cons a l ih =>
    simp only [exMapM]
    rw [h a (List.mem_cons_self a l), ih fun x hx => h x (List.mem_cons_of_mem a hx)]
    rfl

theorem exMapM_ok_of_forall {f : α → Except ε β} {l : List α}
    (h : ∀ x ∈ l, ∃ b, f x = .ok b) : ∃ bs, exMapM f l = .ok bs := by
  induction l with
  | nil => exact ⟨[], rfl⟩
  | cons a l ih =>
    obtain ⟨b, hb⟩ := h a (List.mem_cons_self a l)
    obtain ⟨bs, hbs⟩ := ih fun x hx => h x (List.mem_cons_of_mem a hx)
    refine ⟨b :: bs, ?_⟩
    simp only [exMapM]
    rw [hb, hbs]

theorem exMapM_error_of_mem {f : α → Except ε β} {l : List α} {x : α} {e : ε}
    (hx : x ∈ l) (he : f x = .error e) : ∃ e2, exMapM f l = .error e2 := by
  induction l with
  | nil => cases hx
  | cons a l ih =>
    simp only [exMapM]
    rcases List.mem_cons.1 hx with rfl | hx2
    · rw [he]
      exact ⟨e, rfl⟩
    · cases hfa : f a with
      | error e3 => exact ⟨e3, rfl⟩
      | ok b =>
        obtain ⟨e2, he2⟩ := ih hx2
        rw [he2]
        exact ⟨e2, rfl⟩

theorem exMapM_error_iff {f : α → Except ε β} {l : List α} :
    (∃ e, exMapM f l = .error e) ↔ ∃ x ∈ l, ∃ e, f x = .error e := by
  constructor
  · rintro ⟨e, he⟩
    by_contra hno
    push_neg at hno
    have hok : ∀ x ∈ l, ∃ b, f x = .ok b := by
      intro x hx
      cases hfx : f x with
      | error e2 => exact absurd hfx (hno x hx e2)
      | ok b => exact ⟨b, rfl⟩
    obtain ⟨bs, hbs⟩ := exMapM_ok_of_forall hok
    rw [hbs] at he
    cases he
  · rintro ⟨x, hx, e, he⟩
    exact exMapM_error_of_mem hx he

theorem exMapM_congr {f g : α → Except ε β} {l : List α}
    (h : ∀ x ∈ l, f x = g x) : exMapM f l = exMapM g l := by
  induction l with
  | nil => rfl
  | cons a l ih =>
    simp only [exMapM]
    rw [h a (List.mem_cons_self a l), ih fun x hx => h x (List.mem_cons_of_mem a hx)]

/-- A key taken from a mapping's own key list always looks up. -/
theorem dlookup_of_mem_keys {d : List (String × α)} {k : String}
    (hk : k ∈ d.map Prod.fst) : ∃ v, dlookup k d = some v := by
  obtain ⟨p, hp, hpk⟩ := List.mem_map.1 hk
  have hs : (d.find? fun q => q.1 == k).isSome := by
    rw [List.find?_isSome]
    exact ⟨p, hp, by simp [hpk]⟩
  obtain ⟨q, hq⟩ := Option.isSome_iff_exists.1 hs
  exact ⟨q.2, by simp [dlookup, hq]⟩

theorem rowFromDict_ok {f : α → String} {header : List String} {d : List (String × α)}
    (h : ∀ k ∈ header, ∃ v, dlookup k d = some v) :
    rowFromDict f header d = .ok (header.map fun k => ((dlookup k d).map f).getD "") := by
  refine exMapM_map_ok fun k hk => ?_
  obtain ⟨v, hv⟩ := h k hk
  show (match dlookup k d with
    | some v => Except.ok (f v)
    | none => Except.error k) = Except.ok (((dlookup k d).map f).getD "")
  rw [hv]
  rfl

theorem rowFromDict_error_iff {f : α → String} {header : List String}
    {d : List (String × α)} :
    (∃ k, rowFromDict f header d = .error k) ↔ ∃ k ∈ header, dlookup k d = none := by
  unfold rowFromDict
  rw [exMapM_error_iff]
  constructor
  · rintro ⟨k, hk, e, he⟩
    cases hdl : dlookup k d with
    | none => exact ⟨k, hk, hdl⟩
    | some v =>
      rw [show (match dlookup k d with
        | some v => Except.ok (f v)
        | none => Except.error k) = Except.ok (f v) by rw [hdl]] at he
      cases he
  · rintro ⟨k, hk, hnone⟩
    refine ⟨k, hk, k, ?_⟩
    show (match dlookup k d with
      | some v => Except.ok (f v)
      | none => Except.error k) = Except.error k
    rw [hnone]

/-- C5: `from_dicts` takes the header from the first mapping's keys only;
every mapping (the first included) contributes the row of its values at the
header keys; keys outside the header never influence a row; and construction
fails with a `KeyError` iff some non-first mapping lacks a header key. -/
theorem c5_from_dicts (f : α → String) (d : List (String × α))
    (ds : List (List (String × α))) :
    ((∃ k, from_dicts f (d :: ds) = .error k) ↔
      ∃ d2 ∈ ds, ∃ k ∈ d.map Prod.fst, dlookup k d2 = none) ∧
    ((∀ d2 ∈ ds, ∀ k ∈ d.map Prod.fst, (dlookup k d2).isSome) →
      from_dicts f (d :: ds)
        = .ok ((d.map Prod.fst) :: (d :: ds).map fun m =>
            (d.map Prod.fst).map fun k => ((dlookup k m).map f).getD "")) ∧
    (∀ m1 m2 : List (String × α),
      (∀ k ∈ d.map Prod.fst, dlookup k m1 = dlookup k m2) →
      rowFromDict f (d.map Prod.fst) m1 = rowFromDict f (d.map Prod.fst) m2) := by
  refine ⟨?_, ?_, ?_⟩
  · have hiff : (∃ k, from_dicts f (d :: ds) = .error k)
        ↔ ∃ e, exMapM (rowFromDict f (d.map fun p => p.1)) (d :: ds) = .error e := by
      constructor
      · rintro ⟨k, hk⟩
        simp only [from_dicts] at hk
        cases hex : exMapM (rowFromDict f (d.map fun p => p.1)) (d :: ds) with
        | error e => exact ⟨e, rfl⟩
        | ok rows =>
          rw [hex] at hk
          cases hk
      · rintro ⟨e, he⟩
        refine ⟨e, ?_⟩
        simp only [from_dicts]
        rw [he]
    rw [hiff, exMapM_error_iff]
    constructor
    · rintro ⟨m, hm, e, he⟩
      rcases List.mem_cons.1 hm with rfl | hm2
      · obtain ⟨k, hk, hnone⟩ := rowFromDict_error_iff.1 ⟨e, he⟩
        obtain ⟨v, hv⟩ := dlookup_of_mem_keys hk
        rw [hv] at hnone
        cases hnone
      · obtain ⟨k, hk, hnone⟩ := rowFromDict_error_iff.1 ⟨e, he⟩
        exact ⟨m, hm2, k, hk, hnone⟩
    · rintro ⟨m, hm, k, hk, hnone⟩
      obtain ⟨e, he⟩ := rowFromDict_error_iff.2 ⟨k, hk, hnone⟩
      exact ⟨m, List.mem_cons_of_mem d hm, e, he⟩
  · intro hcov
    have hall : ∀ m ∈ d :: ds,
        rowFromDict f (d.map fun p => p.1) m
          = .ok ((d.map fun p => p.1).map fun k => ((dlookup k m).map f).getD "") := by
      intro m hm
      rcases List.mem_cons.1 hm with rfl | hm2
      · exact rowFromDict_ok fun k hk => dlookup_of_mem_keys hk
      · exact rowFromDict_ok fun k hk => Option.isSome_iff_exists.1 (hcov m hm2 k hk)
    simp only [from_dicts]
    rw [exMapM_map_ok hall]
  · intro m1 m2 hmm
    exact exMapM_congr fun k hk => by
      show (match dlookup k m1 with
        | some v => Except.ok (f v)
        | none => Except.error k)
        = (match dlookup k m2 with
        | some v => Except.ok (f v)
        | none => Except.error k)
      rw [hmm k hk]

/-- Witness for C5: a second mapping with its keys in a different order and
all header keys present builds the expected grid. -/
theorem c5_from_dicts_witness :
    from_dicts (fun s => s) [[("a", "1"), ("b", "2")], [("b", "4"), ("a", "3")]]
      = .ok [["a", "b"], ["1", "2"], ["3", "4"]] := by
  have hc := (c5_from_dicts (fun s => s) [("a", "1"), ("b", "2")]
    [[("b", "4"), ("a", "3")]]).2.1 (by decide)
  rw [hc]
  rfl

/-- A grid whose tail contains a row of the wrong length fails validation
with a nonempty `MisalignedRows`. -/
theorem validate_misaligned_of_bad_row {h row : List String} {t : List (List String)}
    (hmem : row ∈ t) (hlen : row.length ≠ h.length) :
    ∃ rows, validate (h :: t) = .error (.misalignedRows rows) ∧ rows ≠ [] := by
  match t with
  | [] => cases hmem
  | r :: t2 =>
    rw [validate_cons_cons]
    have hne : ((r :: t2).enum.filterMap fun p =>
        if p.2.length ≠ h.length then some (p.1 + 1) else none) ≠ [] := by
      intro hempty
      exact hlen (invalidRows_eq_nil_iff.1 hempty row hmem)
    rw [if_neg (by simpa [List.isEmpty_iff] using hne)]
    exact ⟨_, rfl, hne⟩

/-- C6: both record builders are total — on a non-empty record sequence they
always build a grid of one header row plus one row per record, even for
heterogeneous shapes — and whenever some record's cell count differs from
the first record's field count, validating the built grid fails with
`MisalignedRows`. -/
theorem c6_record_builders (f : α → String)
    (nt : NamedTupleLike α) (nts : List (NamedTupleLike α))
    (sr : Serializable) (srs : List Serializable) :
    (from_namedtuples f (nt :: nts)).length = nts.length + 2 ∧
    (from_serializable (sr :: srs)).length = srs.length + 2 ∧
    ((∃ r ∈ nt :: nts, r.elems.length ≠ nt.fields.length) →
      ∃ rows, validate (from_namedtuples f (nt :: nts))
        = .error (.misalignedRows rows) ∧ rows ≠ []) ∧
    ((∃ r ∈ sr :: srs, r.serialize.length ≠ sr.fields.length) →
      ∃ rows, validate (from_serializable (sr :: srs))
        = .error (.misalignedRows rows) ∧ rows ≠ []) := by
  refine ⟨by simp [from_namedtuples], by simp [from_serializable], ?_, ?_⟩
  · rintro ⟨r, hr, hlen⟩
    show ∃ rows, validate (nt.fields :: (nt :: nts).map fun q => q.elems.map f)
      = .error (.misalignedRows rows) ∧ rows ≠ []
    exact validate_misaligned_of_bad_row (List.mem_map.2 ⟨r, hr, rfl⟩)
      (by simpa using hlen)
  · rintro ⟨r, hr, hlen⟩
    show ∃ rows, validate (sr.fields :: (sr :: srs).map fun q => q.serialize)
      = .error (.misalignedRows rows) ∧ rows ≠ []
    exact validate_misaligned_of_bad_row (List.mem_map.2 ⟨r, hr, rfl⟩) hlen

/-- Witness for C6: heterogeneous records build fine and then fail
validation. -/
theorem c6_record_builders_witness :
    (∃ rows, validate (from_namedtuples (fun s => s)
        [⟨["a", "b"], ["1", "2"]⟩, ⟨["a", "b"], ["3"]⟩])
      = .error (.misalignedRows rows) ∧ rows ≠ []) ∧
    (∃ rows, validate (from_serializable [⟨["a"], ["1"]⟩, ⟨["a"], []⟩])
      = .error (.misalignedRows rows) ∧ rows ≠ []) :=
  ⟨(c6_record_builders (fun s => s) ⟨["a", "b"], ["1", "2"]⟩ [⟨["a", "b"], ["3"]⟩]
      ⟨["a"], ["1"]⟩ [⟨["a"], []⟩]).2.2.1 (by decide),
    (c6_record_builders (fun s => s) ⟨["a", "b"], ["1", "2"]⟩ [⟨["a", "b"], ["3"]⟩]
      ⟨["a"], ["1"]⟩ [⟨["a"], []⟩]).2.2.2 (by decide)⟩

end Table2MD
